import Mathlib

/-!
Verification of the age CLI (`cmd/age/age.go`) and, modelled from the
specification, the core age library it drives: base64/armor codec, the
STREAM chunked payload, the stanza/recipient/identity protocol and the
top-level Encrypt/Decrypt orchestration.

Bytes are modelled as `List Nat`; in-range bytes are `< 256`.  The
cryptographic primitives (ChaCha20-Poly1305, HKDF, HMAC, scrypt) are not
part of this repository's source; following the specification they are
modelled as ideal executable functions that expose exactly the interface
the spec describes (a 16-byte tag that is recomputed and compared on
open, a KEK derivation, a header MAC keyed by the file key).
-/

set_option maxHeartbeats 1000000

namespace Age

/-- Byte strings as lists of naturals; in-range bytes are `< 256`. -/
abbrev Bytes := List Nat

/-- STREAM plaintext chunk size: 64 KiB. -/
def chunkSize : Nat := 65536

/-- ChaCha20-Poly1305 tag size in bytes. -/
def tagSize : Nat := 16

/-! ## Base64 codec (standard alphabet, padded, as used by the armor layer) -/

/-- The standard base64 alphabet, as byte values. -/
def b64Alphabet : Bytes :=
  ("ABCDEFGHIJKLMNOPQRSTUVWXYZabcdefghijklmnopqrstuvwxyz0123456789+/").toList.map Char.toNat

/-- Byte value of the base64 digit with index `v`. -/
def b64chr (v : Nat) : Nat := b64Alphabet.getD v 0

/-- Index of a byte in the base64 alphabet, if any. -/
def b64val (c : Nat) : Option Nat := b64Alphabet.findIdx? (fun x => x == c)

theorem b64val_b64chr_fin : ∀ v : Fin 64, b64val (b64chr v.val) = some v.val := by decide

theorem b64chr_props_fin : ∀ v : Fin 64,
    b64chr v.val ≠ 61 ∧ b64chr v.val ≠ 10 ∧ b64chr v.val ∈ b64Alphabet := by decide

theorem b64val_b64chr {v : Nat} (h : v < 64) : b64val (b64chr v) = some v :=
  b64val_b64chr_fin ⟨v, h⟩

theorem b64chr_ne_pad {v : Nat} (h : v < 64) : b64chr v ≠ 61 :=
  (b64chr_props_fin ⟨v, h⟩).1

theorem b64chr_ne_nl {v : Nat} (h : v < 64) : b64chr v ≠ 10 :=
  (b64chr_props_fin ⟨v, h⟩).2.1

theorem b64chr_mem {v : Nat} (h : v < 64) : b64chr v ∈ b64Alphabet :=
  (b64chr_props_fin ⟨v, h⟩).2.2

theorem nl_not_mem_b64Alphabet : (10 : Nat) ∉ b64Alphabet := by decide

/-- Standard padded base64 encoding of a byte string. -/
def encodeB64 : Bytes → Bytes
  | [] => []
  | [a] => [b64chr (a / 4), b64chr (a % 4 * 16), 61, 61]
  | [a, b] => [b64chr (a / 4), b64chr (a % 4 * 16 + b / 16), b64chr (b % 16 * 4), 61]
  | a :: b :: c :: rest =>
      b64chr (a / 4) :: b64chr (a % 4 * 16 + b / 16) :: b64chr (b % 16 * 4 + c / 64) ::
        b64chr (c % 64) :: encodeB64 rest

/-- Standard padded base64 decoding; rejects non-canonical input. -/
def decodeB64 : Bytes → Option Bytes
  | [] => some []
  | c1 :: c2 :: c3 :: c4 :: rest =>
      match b64val c1, b64val c2 with
      | some v1, some v2 =>
        if c3 = 61 then
          if c4 = 61 ∧ rest = [] ∧ v2 % 16 = 0 then some [v1 * 4 + v2 / 16] else none
        else
          match b64val c3 with
          | some v3 =>
            if c4 = 61 then
              if rest = [] ∧ v3 % 4 = 0 then
                some [v1 * 4 + v2 / 16, v2 % 16 * 16 + v3 / 4]
              else none
            else
              match b64val c4 with
              | some v4 =>
                (decodeB64 rest).map fun bs =>
                  (v1 * 4 + v2 / 16) :: (v2 % 16 * 16 + v3 / 4) :: (v3 % 4 * 64 + v4) :: bs
              | none => none
          | none => none
      | _, _ => none
  | _ => none

theorem decodeB64_encodeB64 (B : Bytes) (hB : ∀ b ∈ B, b < 256) :
    decodeB64 (encodeB64 B) = some B := by
  induction B using encodeB64.induct with
  | case1 => rfl
  | case2 a =>
    have ha : a < 256 := hB a (by simp)
    have h1 : a / 4 < 64 := by omega
    have h2 : a % 4 * 16 < 64 := by omega
    have e1 : a / 4 * 4 + a % 4 * 16 / 16 = a := by omega
    have e2 : a % 4 * 16 % 16 = 0 := by omega
    simp [encodeB64, decodeB64, b64val_b64chr h1, b64val_b64chr h2, e1, e2] <;> omega
  | case3 a b =>
    have ha : a < 256 := hB a (by simp)
    have hb : b < 256 := hB b (by simp)
    have h1 : a / 4 < 64 := by omega
    have h2 : a % 4 * 16 + b / 16 < 64 := by omega
    have h3 : b % 16 * 4 < 64 := by omega
    have e1 : a / 4 * 4 + (a % 4 * 16 + b / 16) / 16 = a := by omega
    have e2 : (a % 4 * 16 + b / 16) % 16 * 16 + b % 16 * 4 / 4 = b := by omega
    have e3 : b % 16 * 4 % 4 = 0 := by omega
    simp [encodeB64, decodeB64, b64val_b64chr h1, b64val_b64chr h2, b64val_b64chr h3,
      b64chr_ne_pad h3, e1, e2, e3] <;> omega
  | case4 a b c rest ih =>
    have ha : a < 256 := hB a (by simp)
    have hb : b < 256 := hB b (by simp)
    have hc : c < 256 := hB c (by simp)
    have hrest : ∀ x ∈ rest, x < 256 := fun x hx => hB x (by simp [hx])
    have h1 : a / 4 < 64 := by omega
    have h2 : a % 4 * 16 + b / 16 < 64 := by omega
    have h3 : b % 16 * 4 + c / 64 < 64 := by omega
    have h4 : c % 64 < 64 := by omega
    have e1 : a / 4 * 4 + (a % 4 * 16 + b / 16) / 16 = a := by omega
    have e2 : (a % 4 * 16 + b / 16) % 16 * 16 + (b % 16 * 4 + c / 64) / 4 = b := by omega
    have e3 : (b % 16 * 4 + c / 64) % 4 * 64 + c % 64 = c := by omega
    simp [encodeB64, decodeB64, b64val_b64chr h1, b64val_b64chr h2, b64val_b64chr h3,
      b64val_b64chr h4, b64chr_ne_pad h3, b64chr_ne_pad h4, ih hrest, e1, e2, e3] <;> omega

theorem encodeB64_chars (B : Bytes) (hB : ∀ b ∈ B, b < 256) :
    ∀ x ∈ encodeB64 B, x ∈ b64Alphabet ∨ x = 61 := by
  induction B using encodeB64.induct with
  | case1 => simp [encodeB64]
  | case2 a =>
    have ha : a < 256 := hB a (by simp)
    intro x hx
    simp only [encodeB64, List.mem_cons, List.mem_singleton] at hx
    rcases hx with rfl | rfl | rfl | rfl | h
    · exact Or.inl (b64chr_mem (by omega))
    · exact Or.inl (b64chr_mem (by omega))
    · exact Or.inr rfl
    · exact Or.inr rfl
    · simp at h
  | case3 a b =>
    have ha : a < 256 := hB a (by simp)
    have hb : b < 256 := hB b (by simp)
    intro x hx
    simp only [encodeB64, List.mem_cons, List.mem_singleton] at hx
    rcases hx with rfl | rfl | rfl | rfl | h
    · exact Or.inl (b64chr_mem (by omega))
    · exact Or.inl (b64chr_mem (by omega))
    · exact Or.inl (b64chr_mem (by omega))
    · exact Or.inr rfl
    · simp at h
  | case4 a b c rest ih =>
    have ha : a < 256 := hB a (by simp)
    have hb : b < 256 := hB b (by simp)
    have hc : c < 256 := hB c (by simp)
    have hrest : ∀ x ∈ rest, x < 256 := fun x hx => hB x (by simp [hx])
    intro x hx
    simp only [encodeB64, List.mem_cons] at hx
    rcases hx with rfl | rfl | rfl | rfl | h
    · exact Or.inl (b64chr_mem (by omega))
    · exact Or.inl (b64chr_mem (by omega))
    · exact Or.inl (b64chr_mem (by omega))
    · exact Or.inl (b64chr_mem (by omega))
    · exact ih hrest x h

theorem encodeB64_ne_nl (B : Bytes) (hB : ∀ b ∈ B, b < 256) :
    ∀ x ∈ encodeB64 B, x ≠ 10 := by
  intro x hx
  rcases encodeB64_chars B hB x hx with h | rfl
  · intro hh
    exact nl_not_mem_b64Alphabet (hh ▸ h)
  · omega

/-! ## Newline-terminated lines -/

/-- Join lines, terminating each with a newline byte. -/
def joinNL (lines : List Bytes) : Bytes := (lines.map (fun l => l ++ [10])).flatten

/-- Split a byte string into newline-terminated lines; fails on an
unterminated trailing line.  `acc` is the current partial line. -/
def splitLinesAux : Bytes → Bytes → Option (List Bytes)
  | [], [] => some []
  | [], _ :: _ => none
  | c :: rest, acc =>
      if c = 10 then (splitLinesAux rest []).map (fun ls => acc :: ls)
      else splitLinesAux rest (acc ++ [c])

def splitLines (s : Bytes) : Option (List Bytes) := splitLinesAux s []

theorem splitLinesAux_append (l t acc : Bytes) (hl : ∀ c ∈ l, c ≠ 10) :
    splitLinesAux (l ++ 10 :: t) acc = (splitLinesAux t []).map (fun ls => (acc ++ l) :: ls) := by
  induction l generalizing acc with
  | nil => simp [splitLinesAux]
  | cons c l ih =>
    have hc : c ≠ 10 := hl c (by simp)
    simp only [List.cons_append, splitLinesAux, if_neg hc, List.append_eq]
    rw [ih (acc ++ [c]) (fun x hx => hl x (by simp [hx]))]
    simp

theorem splitLines_joinNL (lines : List Bytes) (h : ∀ l ∈ lines, ∀ c ∈ l, c ≠ 10) :
    splitLines (joinNL lines) = some lines := by
  induction lines with
  | nil => rfl
  | cons l ls ih =>
    have hstep : joinNL (l :: ls) = l ++ 10 :: joinNL ls := by
      simp [joinNL]
    unfold splitLines
    rw [hstep, splitLinesAux_append l (joinNL ls) [] (h l (by simp))]
    have : splitLinesAux (joinNL ls) [] = some ls := ih (fun x hx => h x (by simp [hx]))
    rw [this]
    simp

/-! ## 64-column wrapping -/

/-- Split a byte string into consecutive pieces of 64 bytes (the last may
be shorter); the empty string yields no pieces. -/
def chunksOf64 (s : Bytes) : List Bytes :=
  if h : s = [] then []
  else s.take 64 :: chunksOf64 (s.drop 64)
termination_by s.length
decreasing_by
  simp only [List.length_drop]
  have hpos : 0 < s.length := List.length_pos.mpr h
  omega

theorem chunksOf64_flatten (s : Bytes) : (chunksOf64 s).flatten = s := by
  induction s using chunksOf64.induct with
  | case1 => simp [chunksOf64]
  | case2 s h ih =>
    rw [chunksOf64, dif_neg h]
    simp [ih]

theorem chunksOf64_short (s : Bytes) : ∀ c ∈ chunksOf64 s, c.length ≤ 64 := by
  induction s using chunksOf64.induct with
  | case1 => simp [chunksOf64]
  | case2 s h ih =>
    rw [chunksOf64, dif_neg h]
    intro c hc
    rcases List.mem_cons.mp hc with rfl | hc
    · simpa using List.length_take_le 64 s
    · exact ih c hc

theorem chunksOf64_subset (s : Bytes) : ∀ c ∈ chunksOf64 s, ∀ x ∈ c, x ∈ s := by
  induction s using chunksOf64.induct with
  | case1 => simp [chunksOf64]
  | case2 s h ih =>
    rw [chunksOf64, dif_neg h]
    intro c hc x hx
    rcases List.mem_cons.mp hc with rfl | hc
    · exact List.take_subset 64 s hx
    · exact List.drop_subset 64 s (ih c hc x hx)

/-! ## Armor codec (modelled from the spec, §4.I) -/

/-- The armor BEGIN marker (`armor.Header` in the source). -/
def armorHeader : Bytes := ("-----BEGIN AGE ENCRYPTED FILE-----").toList.map Char.toNat

/-- The armor END marker. -/
def armorFooter : Bytes := ("-----END AGE ENCRYPTED FILE-----").toList.map Char.toNat

def beginLine : Bytes := armorHeader ++ [10]

def endLine : Bytes := armorFooter ++ [10]

/-- Modelled from the spec: the armor encoder (not under `src/`) — BEGIN
marker line, canonical padded base64 of the raw container wrapped at 64
columns, END marker line. -/
def armorText (B : Bytes) : Bytes :=
  beginLine ++ (joinNL (chunksOf64 (encodeB64 B)) ++ endLine)

/-- Body of the armor decoder: everything after the BEGIN line must be
newline-terminated base64 lines of at most 64 columns drawn from the
base64 alphabet (plus padding), followed by the END line; extra data
after the END marker is rejected. -/
def dearmorBody (rest : Bytes) : Option Bytes :=
  if rest.drop (rest.length - endLine.length) = endLine then
    match splitLines (rest.take (rest.length - endLine.length)) with
    | some lines =>
        if ∀ l ∈ lines, l.length ≤ 64 ∧ ∀ c ∈ l, (c ∈ b64Alphabet ∨ c = 61) then
          decodeB64 lines.flatten
        else none
    | none => none
  else none

/-- Modelled from the spec: the armor decoder (Dearmor, not under `src/`) —
requires the BEGIN line followed by a well-formed armor body. -/
def dearmor (s : Bytes) : Option Bytes :=
  if s.take beginLine.length = beginLine then dearmorBody (s.drop beginLine.length)
  else none

theorem dearmor_armorText (B : Bytes) (hB : ∀ b ∈ B, b < 256) :
    dearmor (armorText B) = some B := by
  have hbody : ∀ l ∈ chunksOf64 (encodeB64 B), ∀ c ∈ l, c ≠ 10 :=
    fun l hl c hc => encodeB64_ne_nl B hB c (chunksOf64_subset _ l hl c hc)
  have htake : (armorText B).take beginLine.length = beginLine :=
    List.take_left' rfl
  have hdrop : (armorText B).drop beginLine.length
      = joinNL (chunksOf64 (encodeB64 B)) ++ endLine :=
    List.drop_left' rfl
  unfold dearmor
  rw [if_pos htake, hdrop]
  unfold dearmorBody
  have hlen : (joinNL (chunksOf64 (encodeB64 B)) ++ endLine).length - endLine.length
      = (joinNL (chunksOf64 (encodeB64 B))).length := by
    simp
  rw [hlen, List.drop_left' rfl, if_pos rfl, List.take_left' rfl,
    splitLines_joinNL _ hbody]
  have hcheck : ∀ l ∈ chunksOf64 (encodeB64 B),
      l.length ≤ 64 ∧ ∀ c ∈ l, (c ∈ b64Alphabet ∨ c = 61) := by
    intro l hl
    exact ⟨chunksOf64_short _ l hl,
      fun c hc => encodeB64_chars B hB c (chunksOf64_subset _ l hl c hc)⟩
  simp only [if_pos hcheck]
  rw [chunksOf64_flatten, decodeB64_encodeB64 B hB]

/-! ## STREAM payload (modelled from the spec, §4.E) -/

/-- Big-endian encoding of a natural in a fixed number of bytes. -/
def natToBE : Nat → Nat → Bytes
  | 0, _ => []
  | w + 1, n => natToBE w (n / 256) ++ [n % 256]

/-- Nonce of a chunk: 11-byte big-endian counter, then the last-chunk
flag byte (0x00 for non-last, 0x01 for last). -/
def chunkNonce (ctr : Nat) (last : Bool) : Bytes :=
  natToBE 11 ctr ++ [if last then 1 else 0]

/-- Modelled from the spec: the 16-byte ChaCha20-Poly1305 tag, idealized
as a deterministic function of the key, the nonce and the message
length.  No claim requires distinguishing equal-length messages under
the same key and nonce, so the ideal MAC ignores the message content;
it does detect any change of message length or nonce. -/
def authTag (key nonce pt : Bytes) : Bytes :=
  List.replicate tagSize ((key.sum + nonce.sum + pt.length) % 256)

/-- Seal one chunk: the plaintext followed by its 16-byte tag. -/
def sealChunk (key nonce pt : Bytes) : Bytes := pt ++ authTag key nonce pt

/-- Open one chunk: split off the 16-byte tag, recompute it over the
rest and compare; fail on a chunk with no room for a tag. -/
def openChunk (key nonce ct : Bytes) : Option Bytes :=
  if ct.length < tagSize then none
  else
    if ct.drop (ct.length - tagSize) = authTag key nonce (ct.take (ct.length - tagSize)) then
      some (ct.take (ct.length - tagSize))
    else none

theorem openChunk_sealChunk (key nonce pt : Bytes) :
    openChunk key nonce (sealChunk key nonce pt) = some pt := by
  have htag : (authTag key nonce pt).length = tagSize := by simp [authTag]
  have h1 : (sealChunk key nonce pt).length = pt.length + tagSize := by
    simp [sealChunk, htag]
  unfold openChunk
  rw [h1, if_neg (by omega)]
  have h2 : pt.length + tagSize - tagSize = pt.length := by omega
  rw [h2]
  unfold sealChunk
  rw [List.drop_left' rfl, List.take_left' rfl, if_pos rfl]

/-- Split a plaintext into STREAM chunks: 64-KiB chunks followed by a
strictly shorter last chunk.  A plaintext whose length is a multiple of
64 KiB (including the empty plaintext) gets an empty last chunk. -/
def chunkPlain (P : Bytes) : List Bytes :=
  if h : P.length < chunkSize then [P]
  else P.take chunkSize :: chunkPlain (P.drop chunkSize)
termination_by P.length
decreasing_by
  simp only [List.length_drop]
  have hcs : 0 < chunkSize := by decide
  omega

/-- Seal a chunk list: every chunk but the final one is sealed with
last-flag 0 and a strictly increasing counter, the final one with
last-flag 1.  Fails (counter wrap) if a non-last chunk would be sealed
with counter 2^64 - 1. -/
def sealedChunks (key : Bytes) : Nat → List Bytes → Option (List (Bool × Bytes))
  | _, [] => some []
  | ctr, [c] => some [(true, sealChunk key (chunkNonce ctr true) c)]
  | ctr, c :: c2 :: rest =>
      if ctr = 2 ^ 64 - 1 then none
      else
        (sealedChunks key (ctr + 1) (c2 :: rest)).map
          (fun l => (false, sealChunk key (chunkNonce ctr false) c) :: l)

/-- The sealed STREAM payload of a plaintext. -/
def streamSeal (key P : Bytes) : Option Bytes :=
  (sealedChunks key 0 (chunkPlain P)).map (fun l => (l.map Prod.snd).flatten)

/-- Failure modes of the STREAM reader: EOF at a chunk boundary when a
further chunk was expected, a trailing fragment too short to hold a tag,
and tag verification failure. -/
inductive StreamError
  | truncated
  | format
  | auth
deriving DecidableEq

/-- The STREAM reader: reads one ciphertext chunk at a time.  A
full-size chunk is verified as non-last and the reader continues; a
short trailing chunk is verified as the last chunk; EOF where a chunk
was expected is a truncation error, and a fragment with no room for a
tag is a format error. -/
def readChunks (key : Bytes) (ctr : Nat) (s : Bytes) : Except StreamError Bytes :=
  if h0 : s.length < tagSize then
    if s.length = 0 then .error .truncated else .error .format
  else if h1 : s.length < chunkSize + tagSize then
    match openChunk key (chunkNonce ctr true) s with
    | some pt => .ok pt
    | none => .error .auth
  else
    match openChunk key (chunkNonce ctr false) (s.take (chunkSize + tagSize)) with
    | some pt =>
        match readChunks key (ctr + 1) (s.drop (chunkSize + tagSize)) with
        | .ok rest => .ok (pt ++ rest)
        | .error e => .error e
    | none => .error .auth
termination_by s.length
decreasing_by
  simp only [List.length_drop]
  have hpos : 0 < chunkSize + tagSize := by decide
  omega

/-- Shape of a well-formed STREAM chunk list: nonempty, every chunk but
the last of exactly 64 KiB, the last strictly shorter. -/
def goodChunks : List Bytes → Prop
  | [] => False
  | [c] => c.length < chunkSize
  | c :: c2 :: rest => c.length = chunkSize ∧ goodChunks (c2 :: rest)

theorem chunkPlain_good (P : Bytes) : goodChunks (chunkPlain P) := by
  induction P using chunkPlain.induct with
  | case1 P h =>
    rw [chunkPlain, dif_pos h]
    simpa [goodChunks] using h
  | case2 P h ih =>
    rw [chunkPlain, dif_neg h]
    have htake : (P.take chunkSize).length = chunkSize := by
      simp only [List.length_take]
      omega
    rcases hrec : chunkPlain (P.drop chunkSize) with _ | ⟨c2, rest⟩
    · rw [hrec] at ih
      exact absurd ih (by simp [goodChunks])
    · rw [hrec] at ih
      exact ⟨htake, ih⟩

theorem chunkPlain_ne_nil (P : Bytes) : chunkPlain P ≠ [] := by
  induction P using chunkPlain.induct with
  | case1 P h => rw [chunkPlain, dif_pos h]; simp
  | case2 P h ih => rw [chunkPlain, dif_neg h]; simp

theorem chunkPlain_flatten (P : Bytes) : (chunkPlain P).flatten = P := by
  induction P using chunkPlain.induct with
  | case1 P h => rw [chunkPlain, dif_pos h]; simp
  | case2 P h ih =>
    rw [chunkPlain, dif_neg h]
    simp [ih]

theorem chunkPlain_lengths (P : Bytes) :
    (chunkPlain P).map List.length
      = List.replicate (P.length / chunkSize) chunkSize ++ [P.length % chunkSize] := by
  induction P using chunkPlain.induct with
  | case1 P h =>
    rw [chunkPlain, dif_pos h]
    rw [Nat.div_eq_of_lt h, Nat.mod_eq_of_lt h]
    simp
  | case2 P h ih =>
    rw [chunkPlain, dif_neg h]
    have htake : (P.take chunkSize).length = chunkSize := by
      simp only [List.length_take, chunkSize] at *
      omega
    have hdiv : P.length / chunkSize = (P.length - chunkSize) / chunkSize + 1 := by
      simp only [chunkSize] at *
      omega
    have hmod : P.length % chunkSize = (P.length - chunkSize) % chunkSize := by
      simp only [chunkSize] at *
      omega
    simp only [List.map_cons, ih, htake, List.length_drop]
    rw [hdiv, hmod, List.replicate_succ]
    rw [List.cons_append]

theorem sealChunk_length (key nonce pt : Bytes) :
    (sealChunk key nonce pt).length = pt.length + tagSize := by
  simp [sealChunk, authTag]

theorem readChunks_nil (key : Bytes) (ctr : Nat) :
    readChunks key ctr [] = .error .truncated := by
  unfold readChunks
  rw [dif_pos (by simp [tagSize])]
  simp

theorem readChunks_frag (key : Bytes) (ctr : Nat) (s : Bytes)
    (h0 : s.length < tagSize) (hne : s.length ≠ 0) :
    readChunks key ctr s = .error .format := by
  unfold readChunks
  rw [dif_pos h0, if_neg hne]

theorem readChunks_short (key : Bytes) (ctr : Nat) (s : Bytes)
    (h0 : tagSize ≤ s.length) (h1 : s.length < chunkSize + tagSize) :
    readChunks key ctr s
      = match openChunk key (chunkNonce ctr true) s with
        | some pt => .ok pt
        | none => .error .auth := by
  unfold readChunks
  rw [dif_neg (by omega), dif_pos h1]

theorem readChunks_full (key : Bytes) (ctr : Nat) (s : Bytes)
    (h1 : chunkSize + tagSize ≤ s.length) :
    readChunks key ctr s
      = match openChunk key (chunkNonce ctr false) (s.take (chunkSize + tagSize)) with
        | some pt =>
            (match readChunks key (ctr + 1) (s.drop (chunkSize + tagSize)) with
             | .ok rest => .ok (pt ++ rest)
             | .error e => .error e)
        | none => .error .auth := by
  have hc : (0 : Nat) < chunkSize := by decide
  conv_lhs => rw [readChunks.eq_def]
  rw [dif_neg (by omega), dif_neg (by omega)]

theorem readChunks_roundtrip (key : Bytes) :
    ∀ cs ctr l, goodChunks cs → sealedChunks key ctr cs = some l →
      readChunks key ctr ((l.map Prod.snd).flatten) = .ok cs.flatten := by
  intro cs
  induction cs with
  | nil =>
    intro ctr l hg _
    exact absurd hg (by simp [goodChunks])
  | cons c rest ih =>
    intro ctr l hg hs
    cases rest with
    | nil =>
      have hl : l = [(true, sealChunk key (chunkNonce ctr true) c)] := by
        simpa [sealedChunks] using hs.symm
      subst hl
      have hgc : c.length < chunkSize := by simpa [goodChunks] using hg
      have hfl : (([(true, sealChunk key (chunkNonce ctr true) c)]).map Prod.snd).flatten
          = sealChunk key (chunkNonce ctr true) c := by simp
      rw [hfl]
      rw [readChunks_short key ctr _ (by rw [sealChunk_length]; omega)
        (by rw [sealChunk_length]; omega)]
      rw [openChunk_sealChunk]
      simp
    | cons c2 rest2 =>
      simp only [goodChunks] at hg
      obtain ⟨hc, hg2⟩ := hg
      simp only [sealedChunks] at hs
      by_cases hctr : ctr = 2 ^ 64 - 1
      · rw [if_pos hctr] at hs
        exact absurd hs (by simp)
      · rw [if_neg hctr] at hs
        rcases Option.map_eq_some'.mp hs with ⟨l', hl', rfl⟩
        have hctlen : (sealChunk key (chunkNonce ctr false) c).length = chunkSize + tagSize := by
          rw [sealChunk_length, hc]
        have hfl : ((((false, sealChunk key (chunkNonce ctr false) c) :: l').map Prod.snd).flatten)
            = sealChunk key (chunkNonce ctr false) c ++ (l'.map Prod.snd).flatten := by
          simp
        rw [hfl]
        rw [readChunks_full key ctr _ (by rw [List.length_append, hctlen]; omega)]
        rw [List.take_left' hctlen, List.drop_left' hctlen, openChunk_sealChunk,
          ih (ctr + 1) l' hg2 hl']
        simp

theorem readChunks_streamSeal (key P pl : Bytes) (h : streamSeal key P = some pl) :
    readChunks key 0 pl = .ok P := by
  rcases Option.map_eq_some'.mp h with ⟨l, hl, rfl⟩
  rw [readChunks_roundtrip key (chunkPlain P) 0 l (chunkPlain_good P) hl, chunkPlain_flatten]

theorem sealedChunks_ctLengths (key : Bytes) :
    ∀ cs ctr l, sealedChunks key ctr cs = some l →
      l.map (fun p => p.2.length) = cs.map (fun c => c.length + tagSize) := by
  intro cs
  induction cs with
  | nil =>
    intro ctr l hs
    have hl : l = [] := by simpa [sealedChunks] using hs.symm
    subst hl
    rfl
  | cons c rest ih =>
    intro ctr l hs
    cases rest with
    | nil =>
      have hl : l = [(true, sealChunk key (chunkNonce ctr true) c)] := by
        simpa [sealedChunks] using hs.symm
      subst hl
      simp [sealChunk_length]
    | cons c2 rest2 =>
      simp only [sealedChunks] at hs
      by_cases hctr : ctr = 2 ^ 64 - 1
      · rw [if_pos hctr] at hs
        exact absurd hs (by simp)
      · rw [if_neg hctr] at hs
        rcases Option.map_eq_some'.mp hs with ⟨l', hl', rfl⟩
        simp only [List.map_cons, sealChunk_length]
        rw [ih (ctr + 1) l' hl']
        simp

theorem sealedChunks_flags (key : Bytes) :
    ∀ cs ctr l, cs ≠ [] → sealedChunks key ctr cs = some l →
      l.map Prod.fst = List.replicate (cs.length - 1) false ++ [true] := by
  intro cs
  induction cs with
  | nil =>
    intro ctr l hne _
    exact absurd rfl hne
  | cons c rest ih =>
    intro ctr l _ hs
    cases rest with
    | nil =>
      have hl : l = [(true, sealChunk key (chunkNonce ctr true) c)] := by
        simpa [sealedChunks] using hs.symm
      subst hl
      simp
    | cons c2 rest2 =>
      simp only [sealedChunks] at hs
      by_cases hctr : ctr = 2 ^ 64 - 1
      · rw [if_pos hctr] at hs
        exact absurd hs (by simp)
      · rw [if_neg hctr] at hs
        rcases Option.map_eq_some'.mp hs with ⟨l', hl', rfl⟩
        simp only [List.map_cons]
        rw [ih (ctr + 1) l' (by simp) hl']
        have hlen : (c2 :: rest2).length - 1 + 1 = (c :: c2 :: rest2).length - 1 := by
          simp
        rw [← hlen, List.replicate_succ]
        simp

theorem sealedChunks_count (key : Bytes) (cs : List Bytes) (ctr : Nat)
    (l : List (Bool × Bytes)) (hs : sealedChunks key ctr cs = some l) :
    l.length = cs.length := by
  have h := congrArg List.length (sealedChunks_ctLengths key cs ctr l hs)
  simpa using h

theorem sealedFlatten_length (key : Bytes) :
    ∀ cs ctr l, sealedChunks key ctr cs = some l →
      ((l.map Prod.snd).flatten).length = (cs.map (fun c => c.length + tagSize)).sum := by
  intro cs
  induction cs with
  | nil =>
    intro ctr l hs
    have hl : l = [] := by simpa [sealedChunks] using hs.symm
    subst hl
    rfl
  | cons c rest ih =>
    intro ctr l hs
    cases rest with
    | nil =>
      have hl : l = [(true, sealChunk key (chunkNonce ctr true) c)] := by
        simpa [sealedChunks] using hs.symm
      subst hl
      simp [sealChunk_length]
    | cons c2 rest2 =>
      simp only [sealedChunks] at hs
      by_cases hctr : ctr = 2 ^ 64 - 1
      · rw [if_pos hctr] at hs
        exact absurd hs (by simp)
      · rw [if_neg hctr] at hs
        rcases Option.map_eq_some'.mp hs with ⟨l', hl', rfl⟩
        have hrec := ih (ctr + 1) l' hl'
        simp only [List.map_cons, List.flatten_cons, List.length_append, sealChunk_length,
          List.sum_cons]
        rw [hrec]
        simp

theorem sealedChunks_ne_nil (key : Bytes) (cs : List Bytes) (ctr : Nat)
    (l : List (Bool × Bytes)) (hcs : cs ≠ []) (hs : sealedChunks key ctr cs = some l) :
    l ≠ [] := by
  intro hnil
  subst hnil
  have h := sealedChunks_count key cs ctr [] hs
  exact hcs (List.length_eq_zero.mp h.symm)

theorem sealedFlatten_ne_nil (key : Bytes) (cs : List Bytes) (ctr : Nat)
    (l : List (Bool × Bytes)) (hcs : cs ≠ []) (hs : sealedChunks key ctr cs = some l) :
    (l.map Prod.snd).flatten ≠ [] := by
  intro hnil
  have h0 : ((l.map Prod.snd).flatten).length = 0 := by rw [hnil]; rfl
  rw [sealedFlatten_length key cs ctr l hs] at h0
  cases cs with
  | nil => exact hcs rfl
  | cons c rest =>
    simp only [List.map_cons, List.sum_cons, tagSize] at h0
    omega

theorem cons_replicate_ne (a v w : Nat) (hvw : v ≠ w) :
    a :: List.replicate 15 v ≠ List.replicate 16 w := by
  intro heq
  have h := congrArg (fun t => t[1]?) heq
  simp [List.getElem?_replicate] at h
  exact hvw h

theorem openChunk_dropLast_last (key : Bytes) (ctr : Nat) (c : Bytes) (hc : c ≠ []) :
    openChunk key (chunkNonce ctr true) ((sealChunk key (chunkNonce ctr true) c).dropLast)
      = none := by
  rcases (List.eq_nil_or_concat c).resolve_left hc with ⟨ys, z, hcz⟩
  subst hcz
  have h1 : (sealChunk key (chunkNonce ctr true) (ys.concat z)).dropLast
      = ys ++ (z :: List.replicate 15
          ((key.sum + (chunkNonce ctr true).sum + (ys.length + 1)) % 256)) := by
    rw [sealChunk, authTag]
    simp only [List.concat_eq_append, List.length_append, List.length_cons, List.length_nil]
    rw [show tagSize = 15 + 1 from rfl, List.replicate_succ', ← List.append_assoc,
      List.dropLast_concat]
    simp [List.append_assoc]
  rw [h1]
  unfold openChunk
  have h2 : (ys ++ (z :: List.replicate 15
      ((key.sum + (chunkNonce ctr true).sum + (ys.length + 1)) % 256))).length
      = ys.length + 16 := by
    simp
  rw [h2]
  simp only [tagSize]
  rw [if_neg (by omega)]
  have h3 : ys.length + 16 - 16 = ys.length := by omega
  rw [h3, List.drop_left' rfl, List.take_left' rfl, authTag]
  simp only [tagSize]
  rw [if_neg (cons_replicate_ne z _ _ (by omega))]

theorem readChunks_dropLast (key : Bytes) :
    ∀ cs ctr l, goodChunks cs → sealedChunks key ctr cs = some l →
      ∃ e, readChunks key ctr (((l.map Prod.snd).flatten).dropLast) = .error e := by
  intro cs
  induction cs with
  | nil =>
    intro ctr l hg _
    exact absurd hg (by simp [goodChunks])
  | cons c rest ih =>
    intro ctr l hg hs
    cases rest with
    | nil =>
      have hl : l = [(true, sealChunk key (chunkNonce ctr true) c)] := by
        simpa [sealedChunks] using hs.symm
      subst hl
      have hgc : c.length < chunkSize := by simpa [goodChunks] using hg
      have hfl : (([(true, sealChunk key (chunkNonce ctr true) c)]).map Prod.snd).flatten
          = sealChunk key (chunkNonce ctr true) c := by simp
      rw [hfl]
      by_cases hcnil : c = []
      · subst hcnil
        refine ⟨.format, ?_⟩
        have hlen : ((sealChunk key (chunkNonce ctr true) []).dropLast).length = 15 := by
          simp [sealChunk, authTag, tagSize]
        exact readChunks_frag key ctr _ (by rw [hlen]; simp [tagSize]) (by rw [hlen]; omega)
      · refine ⟨.auth, ?_⟩
        have hcpos : 0 < c.length := List.length_pos.mpr hcnil
        have hlen : ((sealChunk key (chunkNonce ctr true) c).dropLast).length
            = c.length + 15 := by
          simp [sealChunk, authTag, tagSize]
        rw [readChunks_short key ctr _ (by rw [hlen]; simp only [tagSize]; omega)
          (by rw [hlen]; simp only [chunkSize, tagSize] at hgc ⊢; omega)]
        rw [openChunk_dropLast_last key ctr c hcnil]
    | cons c2 rest2 =>
      simp only [goodChunks] at hg
      obtain ⟨hc, hg2⟩ := hg
      simp only [sealedChunks] at hs
      by_cases hctr : ctr = 2 ^ 64 - 1
      · rw [if_pos hctr] at hs
        exact absurd hs (by simp)
      · rw [if_neg hctr] at hs
        rcases Option.map_eq_some'.mp hs with ⟨l', hl', rfl⟩
        obtain ⟨e, he⟩ := ih (ctr + 1) l' hg2 hl'
        refine ⟨e, ?_⟩
        have hctlen : (sealChunk key (chunkNonce ctr false) c).length = chunkSize + tagSize := by
          rw [sealChunk_length, hc]
        have htail : (l'.map Prod.snd).flatten ≠ [] :=
          sealedFlatten_ne_nil key (c2 :: rest2) (ctr + 1) l' (by simp) hl'
        have hfl : ((((false, sealChunk key (chunkNonce ctr false) c) :: l').map Prod.snd).flatten)
            = sealChunk key (chunkNonce ctr false) c ++ (l'.map Prod.snd).flatten := by
          simp
        rw [hfl, List.dropLast_append_of_ne_nil _ htail]
        rw [readChunks_full key ctr _ (by rw [List.length_append, hctlen]; omega)]
        rw [List.take_left' hctlen, List.drop_left' hctlen, openChunk_sealChunk, he]

theorem readChunks_chopLast (key : Bytes) :
    ∀ cs ctr l, goodChunks cs → sealedChunks key ctr cs = some l →
      readChunks key ctr (((l.dropLast).map Prod.snd).flatten) = .error .truncated := by
  intro cs
  induction cs with
  | nil =>
    intro ctr l hg _
    exact absurd hg (by simp [goodChunks])
  | cons c rest ih =>
    intro ctr l hg hs
    cases rest with
    | nil =>
      have hl : l = [(true, sealChunk key (chunkNonce ctr true) c)] := by
        simpa [sealedChunks] using hs.symm
      subst hl
      simpa using readChunks_nil key ctr
    | cons c2 rest2 =>
      simp only [goodChunks] at hg
      obtain ⟨hc, hg2⟩ := hg
      simp only [sealedChunks] at hs
      by_cases hctr : ctr = 2 ^ 64 - 1
      · rw [if_pos hctr] at hs
        exact absurd hs (by simp)
      · rw [if_neg hctr] at hs
        rcases Option.map_eq_some'.mp hs with ⟨l', hl', rfl⟩
        have hl'ne : l' ≠ [] := sealedChunks_ne_nil key (c2 :: rest2) (ctr + 1) l' (by simp) hl'
        have hctlen : (sealChunk key (chunkNonce ctr false) c).length = chunkSize + tagSize := by
          rw [sealChunk_length, hc]
        rw [List.dropLast_cons_of_ne_nil hl'ne]
        have hfl : ((((false, sealChunk key (chunkNonce ctr false) c) :: l'.dropLast).map
              Prod.snd).flatten)
            = sealChunk key (chunkNonce ctr false) c ++ ((l'.dropLast).map Prod.snd).flatten := by
          simp
        rw [hfl]
        rw [readChunks_full key ctr _ (by rw [List.length_append, hctlen]; omega)]
        rw [List.take_left' hctlen, List.drop_left' hctlen, openChunk_sealChunk,
          ih (ctr + 1) l' hg2 hl']

/-! ## Stanzas, recipients, identities (spec §3, §4.H) -/

/-- A header stanza: type tag, arguments, binary body.  (`ty` is the
source's `Type` field, renamed because `Type` is reserved in Lean.) -/
structure Stanza where
  ty : String
  args : List String
  body : Bytes
deriving DecidableEq

/-- Result of an identity's Unwrap: a recovered file key, an
incorrect-identity signal (try the next identity), or a hard error. -/
inductive UnwrapResult
  | key (fk : Bytes)
  | incorrect
  | hard
deriving DecidableEq

/-- Modelled from the spec: identities are polymorphic over
`Unwrap(stanzas) -> fileKey | ErrIncorrectIdentity | HardError`. -/
abbrev Identity := List Stanza → UnwrapResult

/-- Modelled from the spec: recipients are polymorphic over
`Wrap(fileKey) -> stanzas`; the `scrypt` field records whether the
recipient is of the scrypt type (a Go type assertion in the library). -/
structure Recipient where
  wrap : Bytes → List Stanza
  scrypt : Bool

/-- Stanzas produced by wrapping a file key to each recipient in order. -/
def stanzasFor (recipients : List Recipient) (fk : Bytes) : List Stanza :=
  (recipients.map (fun r => r.wrap fk)).flatten

/-- Modelled from the spec: the payload key
`HKDF(FileKey, salt = nonce, info = "payload")`, idealized as the
pairing of its inputs. -/
def payloadKey (fk nonce : Bytes) : Bytes := fk ++ nonce

/-- Modelled from the spec: the header MAC, HMAC-SHA-256 over the header
keyed by `HKDF(FileKey, salt = "", info = "header")`, idealized as a
32-byte function of the file key and the stanzas. -/
def headerMac (fk : Bytes) (sts : List Stanza) : Bytes :=
  List.replicate 32
    ((fk.sum + (sts.map (fun s => s.ty.length + s.args.length + s.body.sum)).sum) % 256)

/-- Errors of top-level Encrypt/Decrypt. -/
inductive AgeError
  | noRecipients
  | scryptWithOthers
  | scryptStanzaNotAlone
  | headerMalformed
  | noIdentityMatched
  | hardIdentity
  | hmacMismatch
  | stream (e : StreamError)
  | counterOverflow
deriving DecidableEq

/-- The binary container, structurally: header stanzas, header MAC,
16-byte payload nonce, sealed STREAM payload bytes. -/
structure EncryptedFile where
  stanzas : List Stanza
  mac : Bytes
  nonce : Bytes
  payload : Bytes
deriving DecidableEq

/-- Modelled from the spec (§4.H Encrypt): validate that an scrypt
recipient is alone, wrap the file key to every recipient, emit the
header with its MAC and the sealed payload.  The file key and payload
nonce are the operation's injected randomness. -/
def encrypt (recipients : List Recipient) (fk nonce P : Bytes) :
    Except AgeError EncryptedFile :=
  if recipients.length = 0 then .error .noRecipients
  else if (∃ r ∈ recipients, r.scrypt = true) ∧ recipients.length ≠ 1 then
    .error .scryptWithOthers
  else
    match streamSeal (payloadKey fk nonce) P with
    | none => .error .counterOverflow
    | some pl =>
        .ok ⟨stanzasFor recipients fk, headerMac fk (stanzasFor recipients fk), nonce, pl⟩

/-- Try identities in order against the header's stanzas; the first
recovered file key wins, a hard error aborts. -/
def firstKey : List Identity → List Stanza → Except AgeError Bytes
  | [], _ => .error .noIdentityMatched
  | i :: rest, sts =>
      match i sts with
      | .key fk => .ok fk
      | .incorrect => firstKey rest sts
      | .hard => .error .hardIdentity

/-- Modelled from the spec (§4.H Decrypt): reject an empty header and an
scrypt stanza that is not alone, try the identities in order, verify the
header MAC with the recovered file key, then read the STREAM payload. -/
def decrypt (ids : List Identity) (f : EncryptedFile) : Except AgeError Bytes :=
  if f.stanzas = [] then .error .headerMalformed
  else if (∃ s ∈ f.stanzas, s.ty = ("scrypt")) ∧ f.stanzas.length ≠ 1 then
    .error .scryptStanzaNotAlone
  else
    match firstKey ids f.stanzas with
    | .error e => .error e
    | .ok fk =>
        if f.mac = headerMac fk f.stanzas then
          match readChunks (payloadKey fk f.nonce) 0 f.payload with
          | .ok P => .ok P
          | .error e => .error (.stream e)
        else .error .hmacMismatch

/-! ## scrypt identity (modelled from the spec, §4.G) -/

/-- Decimal parse of a work-factor argument: nonempty digit string. -/
def parseDecimal (s : String) : Option Nat :=
  let cs := s.toList.map Char.toNat
  if cs ≠ [] ∧ ∀ c ∈ cs, 48 ≤ c ∧ c ≤ 57 then
    some (cs.foldl (fun a c => a * 10 + (c - 48)) 0)
  else none

/-- Modelled from the spec: the scrypt KDF
`scrypt(password, "age-encryption.org/v1/scrypt" || salt, N = 2^logN)`,
idealized as a 32-byte function of its inputs. -/
def scryptKDF (pass : String) (salt : Bytes) (logN : Nat) : Bytes :=
  List.replicate 32 ((pass.length + salt.sum + logN) % 256)

/-- The all-zero 12-byte AEAD nonce used to (un)seal a file key. -/
def zeroNonce : Bytes := List.replicate 12 0

/-- Modelled from the spec (§4.G Unwrap), on one stanza: ignore a stanza
that is not of scrypt type; reject malformed arguments as a hard error;
reject `logN < 1` or `logN > 22` as a hard error before the KDF runs;
otherwise derive the KEK and attempt to unseal the file key.  The second
component counts scrypt KDF invocations. -/
def scryptUnwrapOne (pass : String) (s : Stanza) : UnwrapResult × Nat :=
  if s.ty ≠ ("scrypt") then (.incorrect, 0)
  else
    match s.args with
    | [saltArg, logNArg] =>
        match parseDecimal logNArg with
        | none => (.hard, 0)
        | some logN =>
            if logN < 1 ∨ 22 < logN then (.hard, 0)
            else
              match openChunk (scryptKDF pass (saltArg.toList.map Char.toNat) logN)
                  zeroNonce s.body with
              | some fk => (.key fk, 1)
              | none => (.incorrect, 1)
    | _ => (.hard, 0)

/-- Modelled from the spec: the scrypt identity's Unwrap over the whole
stanza list — try each stanza in order, ignoring stanzas another
identity type owns; count KDF invocations. -/
def scryptUnwrap (pass : String) : List Stanza → UnwrapResult × Nat
  | [] => (.incorrect, 0)
  | s :: rest =>
      match scryptUnwrapOne pass s with
      | (.incorrect, n) =>
          match scryptUnwrap pass rest with
          | (r, m) => (r, n + m)
      | other => other

/-! ## Lazy scrypt identity and the CLI passphrase decrypt path -/

/-- Result of one Unwrap call of the lazy scrypt identity: the unwrap
result, the updated passphrase cache, and the number of prompts issued
by this call. -/
structure LazyResult where
  res : UnwrapResult
  cache : Option String
  prompts : Nat
deriving DecidableEq

/-- Modelled from the spec (design note "Lazy scrypt identity", used by
the source's `decryptPass` with `passphrasePromptForDecryption`): prompt
for the passphrase only when an scrypt stanza is actually present and no
passphrase is cached yet, and cache the result.  `pass` is the value the
prompt would return. -/
def lazyScryptUnwrap (pass : String) (cache : Option String) (stanzas : List Stanza) :
    LazyResult :=
  match stanzas with
  | [] => ⟨.incorrect, cache, 0⟩
  | [s] =>
      if s.ty = ("scrypt") then
        match cache with
        | some p => ⟨(scryptUnwrap p [s]).1, some p, 0⟩
        | none => ⟨(scryptUnwrap pass [s]).1, some pass, 1⟩
      else ⟨.incorrect, cache, 0⟩
  | s :: s2 :: rest =>
      if ∃ x ∈ s :: s2 :: rest, x.ty = ("scrypt") then ⟨.hard, cache, 0⟩
      else ⟨.incorrect, cache, 0⟩

/-- The CLI passphrase decrypt path (`decryptPass` in the source):
decrypt with the lazy scrypt identity as the only identity, counting the
passphrase prompts issued. -/
def decryptPass (pass : String) (f : EncryptedFile) : Except AgeError Bytes × Nat :=
  if f.stanzas = [] then (.error .headerMalformed, 0)
  else if (∃ s ∈ f.stanzas, s.ty = ("scrypt")) ∧ f.stanzas.length ≠ 1 then
    (.error .scryptStanzaNotAlone, 0)
  else
    match lazyScryptUnwrap pass none f.stanzas with
    | ⟨.key fk, _, n⟩ =>
        (if f.mac = headerMac fk f.stanzas then
          match readChunks (payloadKey fk f.nonce) 0 f.payload with
          | .ok P => .ok P
          | .error e => .error (.stream e)
        else .error .hmacMismatch, n)
    | ⟨.incorrect, _, n⟩ => (.error .noIdentityMatched, n)
    | ⟨.hard, _, n⟩ => (.error .hardIdentity, n)

/-! ## CLI decrypt input handling (from `cmd/age/age.go`) -/

/-- The CRLF-mangled intro (source constant `crlfMangledIntro`). -/
def crlfMangledIntro : Bytes := ("age-encryption.org/v1").toList.map Char.toNat ++ [13]

/-- The UTF-16-mangled intro (source constant `utf16MangledIntro`): a
byte-order mark followed by "age-encryp" in UTF-16-LE, truncated to the
length of the correct intro line. -/
def utf16MangledIntro : Bytes :=
  [255, 254, 97, 0, 103, 0, 101, 0, 45, 0, 101, 0, 110, 0, 99, 0, 114, 0, 121, 0, 112, 0]

/-- Failures of the CLI decrypt input handling. -/
inductive CliError
  | invalidIntro
  | armorMalformed
deriving DecidableEq

/-- The armor-detection stage of the source's `decrypt`: if the first
`len(armor.Header)` bytes equal the BEGIN marker, the input is
dearmored; otherwise it streams through unchanged. -/
def decryptArmorStage (s : Bytes) : Except CliError Bytes :=
  if s.take armorHeader.length = armorHeader then
    match dearmor s with
    | some b => .ok b
    | none => .error .armorMalformed
  else .ok s

/-- The source's `decrypt` input handling: peek `len(crlfMangledIntro)`
bytes; if they equal either mangled intro, report an invalid header
intro; otherwise hand the input to armor detection. -/
def cliDecryptInput (s : Bytes) : Except CliError Bytes :=
  if s.take crlfMangledIntro.length = crlfMangledIntro
      ∨ s.take crlfMangledIntro.length = utf16MangledIntro then
    .error .invalidIntro
  else decryptArmorStage s

/-- The source's `rejectScryptIdentity.Unwrap`: anything that is not
exactly one stanza of type scrypt is an incorrect-identity signal; one
scrypt stanza is a hard error (the CLI exits with a hint). -/
def rejectScryptIdentity : Identity := fun stanzas =>
  match stanzas with
  | [s] => if s.ty = ("scrypt") then .hard else .incorrect
  | _ => .incorrect

/-- The source's `decryptNotPass`: the identity list always starts with
`rejectScryptIdentity`, followed by the identities from the `-i`/`-j`
flags in order. -/
def decryptNotPassIdentities (ids : List Identity) : List Identity :=
  rejectScryptIdentity :: ids

/-- The source's `encryptPass`: passphrase encryption passes the single
scrypt recipient to `encrypt`. -/
def encryptPassRecipients (r : Recipient) : List Recipient := [r]

/-! ## lazyOpener (from `cmd/age/age.go`) -/

/-- The only creation failure mode the model distinguishes. -/
inductive LOErr
  | createFailed
deriving DecidableEq

/-- State of a `lazyOpener`: the created file's contents, if the file
has been created, and the stored creation error, if creation failed. -/
structure LazyOpener where
  file : Option Bytes
  err : Option LOErr
deriving DecidableEq

/-- `newLazyOpener`: no file, no error. -/
def newLazyOpener : LazyOpener := ⟨none, none⟩

/-- One `Write` call: create the file on first use (outcome given by
`createOk`); once creation has failed, return the stored error with 0
bytes written; otherwise append to the file. -/
def lazyOpenerWrite (createOk : Bool) (st : LazyOpener) (p : Bytes) :
    (Nat × Option LOErr) × LazyOpener :=
  let st1 :=
    if st.file = none ∧ st.err = none then
      if createOk then (⟨some [], none⟩ : LazyOpener) else ⟨none, some .createFailed⟩
    else st
  match st1.err with
  | some e => ((0, some e), st1)
  | none =>
      match st1.file with
      | some content => ((p.length, none), ⟨some (content ++ p), none⟩)
      | none => ((0, none), st1)

/-- `Close`: close the file if one was created (closing is modelled as
succeeding), return nil if no file was ever created. -/
def lazyOpenerClose (st : LazyOpener) : Option LOErr :=
  match st.file with
  | some _ => none
  | none => none

/-- Run a sequence of Write calls from a given state, collecting each
call's result. -/
def lazyOpenerRun (createOk : Bool) (st : LazyOpener) :
    List Bytes → List (Nat × Option LOErr) × LazyOpener
  | [] => ([], st)
  | p :: ps =>
      match lazyOpenerWrite createOk st p with
      | (r, st1) =>
          match lazyOpenerRun createOk st1 ps with
          | (rs, st2) => (r :: rs, st2)

/-! ## Helper lemmas for the claims -/

theorem chunkPlain_nil : chunkPlain ([] : Bytes) = [[]] := by
  rw [chunkPlain, dif_pos (by decide)]

theorem stanzasFor_ne_nil (recipients : List Recipient) (fk : Bytes)
    (hne : recipients ≠ []) (hw : ∀ r ∈ recipients, r.wrap fk ≠ []) :
    stanzasFor recipients fk ≠ [] := by
  cases recipients with
  | nil => exact absurd rfl hne
  | cons r rest =>
    unfold stanzasFor
    simp only [List.map_cons, List.flatten_cons]
    intro h
    rcases List.append_eq_nil.mp h with ⟨h1, _⟩
    exact hw r (by simp) h1

/-- C1: for every plaintext and every non-empty list of recipient/identity
pairs in which each identity matches one recipient (it recovers the file
key from the produced stanzas, each recipient wraps to at least one
stanza, and an scrypt-typed stanza only arises alone), decrypting the
output of encrypting the plaintext to those recipients with those
identities yields exactly the plaintext, byte for byte. -/
theorem encrypt_decrypt_roundtrip
    (P fk nonce : Bytes) (pairs : List (Recipient × Identity)) (f : EncryptedFile)
    (hne : pairs ≠ [])
    (hwrap : ∀ p ∈ pairs, p.1.wrap fk ≠ [])
    (halone : (∃ s ∈ stanzasFor (pairs.map Prod.fst) fk, s.ty = ("scrypt")) →
      (stanzasFor (pairs.map Prod.fst) fk).length = 1)
    (hmatch : ∀ p ∈ pairs, p.2 (stanzasFor (pairs.map Prod.fst) fk) = .key fk)
    (henc : encrypt (pairs.map Prod.fst) fk nonce P = .ok f) :
    decrypt (pairs.map Prod.snd) f = .ok P := by
  unfold encrypt at henc
  rw [if_neg (by
    simp only [List.length_map]
    intro h0
    exact hne (List.length_eq_zero.mp h0))] at henc
  by_cases h2 : (∃ r ∈ pairs.map Prod.fst, r.scrypt = true) ∧ (pairs.map Prod.fst).length ≠ 1
  · rw [if_pos h2] at henc
    exact absurd henc (by simp)
  · rw [if_neg h2] at henc
    cases hseal : streamSeal (payloadKey fk nonce) P with
    | none =>
      rw [hseal] at henc
      exact absurd henc (by simp)
    | some pl =>
      rw [hseal] at henc
      have hf : f = ⟨stanzasFor (pairs.map Prod.fst) fk,
          headerMac fk (stanzasFor (pairs.map Prod.fst) fk), nonce, pl⟩ := by
        have := henc
        simp only [Except.ok.injEq] at this
        exact this.symm
      have hst : f.stanzas = stanzasFor (pairs.map Prod.fst) fk := by rw [hf]
      have hmc : f.mac = headerMac fk (stanzasFor (pairs.map Prod.fst) fk) := by rw [hf]
      have hnn : f.nonce = nonce := by rw [hf]
      have hpl : f.payload = pl := by rw [hf]
      unfold decrypt
      rw [hst, hmc, hnn, hpl]
      have hstne : stanzasFor (pairs.map Prod.fst) fk ≠ [] := by
        refine stanzasFor_ne_nil _ fk (by simpa using hne) ?_
        intro r hr
        rcases List.mem_map.mp hr with ⟨p, hp, rfl⟩
        exact hwrap p hp
      rw [if_neg hstne]
      rw [if_neg (by
        rintro ⟨hex, hlen⟩
        exact hlen (halone hex))]
      cases pairs with
      | nil => exact absurd rfl hne
      | cons p rest =>
        have hm := hmatch p (by simp)
        simp only [List.map_cons] at hm ⊢
        rw [firstKey, hm]
        show (if headerMac fk (stanzasFor (p.1 :: List.map Prod.fst rest) fk)
              = headerMac fk (stanzasFor (p.1 :: List.map Prod.fst rest) fk) then
            match readChunks (payloadKey fk nonce) 0 pl with
            | Except.ok P => Except.ok P
            | Except.error e => Except.error (AgeError.stream e)
          else Except.error AgeError.hmacMismatch) = Except.ok P
        rw [if_pos rfl, readChunks_streamSeal (payloadKey fk nonce) P pl hseal]

/-- A trivial X25519-style recipient used in witnesses: it wraps the
file key into the body of one stanza. -/
def r0 : Recipient := ⟨fun fk => [⟨("X25519"), [], fk⟩], false⟩

/-- The matching witness identity: it returns the body of a single
X25519 stanza. -/
def i0 : Identity := fun sts =>
  match sts with
  | [s] => if s.ty = ("X25519") then .key s.body else .incorrect
  | _ => .incorrect

def fk0 : Bytes := List.replicate 16 0

def n0 : Bytes := List.replicate 16 0

/-- The container produced by encrypting the empty plaintext to `r0`
with file key `fk0` and payload nonce `n0`. -/
def file0 : EncryptedFile :=
  ⟨stanzasFor [r0] fk0, headerMac fk0 (stanzasFor [r0] fk0), n0, List.replicate 16 1⟩

theorem streamSeal_empty : streamSeal (payloadKey fk0 n0) [] = some (List.replicate 16 1) := by
  unfold streamSeal
  rw [chunkPlain_nil]
  decide

theorem encrypt_file0 : encrypt [r0] fk0 n0 [] = .ok file0 := by
  unfold encrypt
  rw [if_neg (by decide), if_neg (by decide), streamSeal_empty]
  rfl

theorem encrypt_decrypt_roundtrip_witness : decrypt [i0] file0 = .ok [] :=
  encrypt_decrypt_roundtrip [] fk0 n0 [(r0, i0)] file0 (by simp)
    (by decide) (by decide) (by decide) encrypt_file0

theorem armorStage_ne_invalidIntro (s : Bytes) :
    decryptArmorStage s ≠ .error .invalidIntro := by
  unfold decryptArmorStage
  by_cases h : s.take armorHeader.length = armorHeader
  · rw [if_pos h]
    cases dearmor s with
    | none => simp
    | some b => simp
  · rw [if_neg h]
    simp

/-- C2: dearmoring the armored form of any byte string returns it
unchanged, the CLI armor-detection stage applies the decoder exactly on
inputs whose first bytes equal the armor BEGIN marker (in particular on
every armored output), and passes every other input through unchanged. -/
theorem armor_roundtrip_and_detection (B : Bytes) (hB : ∀ b ∈ B, b < 256) :
    dearmor (armorText B) = some B ∧
    decryptArmorStage (armorText B) = .ok B ∧
    ∀ s : Bytes, s.take armorHeader.length ≠ armorHeader → decryptArmorStage s = .ok s := by
  refine ⟨dearmor_armorText B hB, ?_, ?_⟩
  · unfold decryptArmorStage
    have hpre : (armorText B).take armorHeader.length = armorHeader := by
      unfold armorText beginLine
      rw [List.append_assoc]
      exact List.take_left' rfl
    rw [if_pos hpre, dearmor_armorText B hB]
  · intro s hs
    unfold decryptArmorStage
    rw [if_neg hs]

theorem armor_roundtrip_and_detection_witness : dearmor (armorText []) = some [] :=
  (armor_roundtrip_and_detection [] (by decide)).1

/-- C3: encryption fails with a dedicated error whenever an scrypt
recipient appears together with any other recipient, decryption fails
whenever an scrypt-typed stanza coexists with any other stanza, a
successful encryption involving an scrypt recipient therefore has
exactly one recipient, and the CLI passphrase encryption path passes
exactly one recipient. -/
theorem scrypt_exclusivity :
    (∀ (recipients : List Recipient) (fk nonce P : Bytes),
        (∃ r ∈ recipients, r.scrypt = true) → recipients.length ≠ 1 →
        encrypt recipients fk nonce P = .error .scryptWithOthers) ∧
    (∀ (ids : List Identity) (f : EncryptedFile),
        (∃ s ∈ f.stanzas, s.ty = ("scrypt")) → f.stanzas.length ≠ 1 →
        decrypt ids f = .error .scryptStanzaNotAlone) ∧
    (∀ (recipients : List Recipient) (fk nonce P : Bytes) (f : EncryptedFile),
        (∃ r ∈ recipients, r.scrypt = true) →
        encrypt recipients fk nonce P = .ok f → recipients.length = 1) ∧
    (∀ r : Recipient, (encryptPassRecipients r).length = 1) := by
  have henc : ∀ (recipients : List Recipient) (fk nonce P : Bytes),
      (∃ r ∈ recipients, r.scrypt = true) → recipients.length ≠ 1 →
      encrypt recipients fk nonce P = .error .scryptWithOthers := by
    intro recipients fk nonce P hex hlen
    have hne0 : recipients.length ≠ 0 := by
      intro h0
      have hnil : recipients = [] := List.length_eq_zero.mp h0
      rw [hnil] at hex
      rcases hex with ⟨r, hr, _⟩
      exact absurd hr (List.not_mem_nil r)
    unfold encrypt
    rw [if_neg hne0, if_pos ⟨hex, hlen⟩]
  refine ⟨henc, ?_, ?_, fun r => rfl⟩
  · intro ids f hex hlen
    have hne : f.stanzas ≠ [] := by
      intro h
      rw [h] at hex
      rcases hex with ⟨s, hs, _⟩
      exact absurd hs (List.not_mem_nil s)
    unfold decrypt
    rw [if_neg hne, if_pos ⟨hex, hlen⟩]
  · intro recipients fk nonce P f hex hok
    by_contra hlen
    rw [henc recipients fk nonce P hex hlen] at hok
    exact absurd hok (by simp)

/-- An scrypt recipient used in witnesses. -/
def sR : Recipient := ⟨fun _ => [⟨("scrypt"), [], []⟩], true⟩

theorem scrypt_exclusivity_witness :
    encrypt [sR, sR] fk0 n0 [] = .error .scryptWithOthers :=
  scrypt_exclusivity.1 [sR, sR] fk0 n0 [] (by decide) (by decide)

/-- C4: the scrypt identity rejects every stanza whose work factor is
below 1 or above 22 as a hard error (never as an incorrect-identity
signal), and the rejection happens with zero invocations of the scrypt
key derivation; the witness below instantiates this at logN = 23. -/
theorem scrypt_logN_rejected (pass saltArg nStr : String) (body : Bytes) (n : Nat)
    (hn : parseDecimal nStr = some n) (hbad : n < 1 ∨ 22 < n) :
    scryptUnwrap pass [⟨("scrypt"), [saltArg, nStr], body⟩] = (.hard, 0) := by
  have hone : scryptUnwrapOne pass ⟨("scrypt"), [saltArg, nStr], body⟩ = (.hard, 0) := by
    unfold scryptUnwrapOne
    rw [if_neg (by simp)]
    show (match parseDecimal nStr with
      | none => ((.hard, 0) : UnwrapResult × Nat)
      | some logN =>
          if logN < 1 ∨ 22 < logN then (.hard, 0)
          else
            match openChunk (scryptKDF pass (saltArg.toList.map Char.toNat) logN)
                zeroNonce body with
            | some fk => (.key fk, 1)
            | none => (.incorrect, 1)) = (.hard, 0)
    rw [hn]
    show (if n < 1 ∨ 22 < n then ((.hard, 0) : UnwrapResult × Nat)
        else
          match openChunk (scryptKDF pass (saltArg.toList.map Char.toNat) n)
              zeroNonce body with
          | some fk => (.key fk, 1)
          | none => (.incorrect, 1)) = (.hard, 0)
    rw [if_pos hbad]
  unfold scryptUnwrap
  rw [hone]

theorem scrypt_logN_rejected_witness :
    scryptUnwrap ("pw") [⟨("scrypt"), [("c2FsdA"), ("23")], []⟩] = (.hard, 0) :=
  scrypt_logN_rejected ("pw") ("c2FsdA") ("23") [] 23 (by decide) (by decide)

/-- Modelled from the spec: the expected number of payload chunks,
⌈max(len, 1) / 65536⌉, plus one extra empty last chunk when the length
is a non-zero multiple of the chunk size. -/
def numChunks (P : Bytes) : Nat :=
  (max P.length 1 + (chunkSize - 1)) / chunkSize
    + (if P.length ≠ 0 ∧ P.length % chunkSize = 0 then 1 else 0)

theorem numChunks_eq (P : Bytes) : numChunks P = P.length / chunkSize + 1 := by
  unfold numChunks
  by_cases h : P.length ≠ 0 ∧ P.length % chunkSize = 0
  · rw [if_pos h]
    simp only [chunkSize] at *
    omega
  · rw [if_neg h]
    simp only [chunkSize] at *
    omega

/-- C5: the sealed STREAM payload of a plaintext consists of
`numChunks P` chunks — full 64 KiB + tag chunks followed by a shorter
last chunk of `len % 64 KiB` plaintext bytes plus the tag (so a non-zero
multiple of 64 KiB gets an extra empty last chunk and the empty
plaintext a single empty chunk) — and exactly the terminal chunk
carries last-flag 0x01. -/
theorem stream_chunk_structure (key P : Bytes) (l : List (Bool × Bytes))
    (h : sealedChunks key 0 (chunkPlain P) = some l) :
    l.length = numChunks P ∧
    l.map Prod.fst = List.replicate (numChunks P - 1) false ++ [true] ∧
    l.map (fun p => p.2.length)
      = List.replicate (numChunks P - 1) (chunkSize + tagSize)
        ++ [P.length % chunkSize + tagSize] := by
  have hcount := sealedChunks_count key (chunkPlain P) 0 l h
  have hchn : (chunkPlain P).length = P.length / chunkSize + 1 := by
    have hcl := congrArg List.length (chunkPlain_lengths P)
    simpa using hcl
  have hnum := numChunks_eq P
  refine ⟨by rw [hcount, hchn, hnum], ?_, ?_⟩
  · rw [sealedChunks_flags key (chunkPlain P) 0 l (chunkPlain_ne_nil P) h, hchn, hnum]
  · rw [sealedChunks_ctLengths key (chunkPlain P) 0 l h]
    have hmm : (chunkPlain P).map (fun c => c.length + tagSize)
        = ((chunkPlain P).map List.length).map (fun n => n + tagSize) := by
      rw [List.map_map]
      rfl
    rw [hmm, chunkPlain_lengths, List.map_append, List.map_replicate, hnum]
    simp

theorem stream_chunk_structure_witness :
    ([(true, List.replicate 16 1)] : List (Bool × Bytes)).length = numChunks [] :=
  (stream_chunk_structure [] [] [(true, List.replicate 16 1)]
    (by rw [chunkPlain_nil]; decide)).1

/-- C6: for every valid STREAM payload, removing its final byte causes
the reader to fail; and removing the entire final chunk (so that the
reader hits EOF where a further chunk of the non-terminated stream was
expected) fails specifically with the truncation error. -/
theorem truncation_detected (key P pl : Bytes) (h : streamSeal key P = some pl) :
    (∃ e, readChunks key 0 (pl.dropLast) = .error e) ∧
    ∀ l, sealedChunks key 0 (chunkPlain P) = some l →
      readChunks key 0 (((l.dropLast).map Prod.snd).flatten) = .error .truncated := by
  rcases Option.map_eq_some'.mp h with ⟨l, hl, rfl⟩
  exact ⟨readChunks_dropLast key (chunkPlain P) 0 l (chunkPlain_good P) hl,
    fun l' hl' => readChunks_chopLast key (chunkPlain P) 0 l' (chunkPlain_good P) hl'⟩

theorem truncation_detected_witness :
    ∃ e, readChunks [] 0 ((List.replicate 16 1).dropLast) = .error e :=
  (truncation_detected [] [] (List.replicate 16 1)
    (by unfold streamSeal; rw [chunkPlain_nil]; decide)).1

theorem lazy_prompts_cached (pass p : String) (l : List Stanza) :
    (lazyScryptUnwrap pass (some p) l).prompts = 0 := by
  cases l with
  | nil => rfl
  | cons s rest =>
    cases rest with
    | nil =>
      simp only [lazyScryptUnwrap]
      by_cases h : s.ty = ("scrypt")
      · rw [if_pos h]
      · rw [if_neg h]
    | cons s2 rest2 =>
      simp only [lazyScryptUnwrap]
      by_cases h : ∃ x ∈ s :: s2 :: rest2, x.ty = ("scrypt")
      · rw [if_pos h]
      · rw [if_neg h]

theorem lazy_prompts_le_one (pass : String) (cache : Option String) (l : List Stanza) :
    (lazyScryptUnwrap pass cache l).prompts ≤ 1 := by
  cases l with
  | nil => cases cache <;> simp [lazyScryptUnwrap]
  | cons s rest =>
    cases rest with
    | nil =>
      simp only [lazyScryptUnwrap]
      by_cases h : s.ty = ("scrypt")
      · rw [if_pos h]
        cases cache <;> simp
      · rw [if_neg h]
        simp
    | cons s2 rest2 =>
      simp only [lazyScryptUnwrap]
      by_cases h : ∃ x ∈ s :: s2 :: rest2, x.ty = ("scrypt")
      · rw [if_pos h]
        simp
      · rw [if_neg h]
        simp

theorem lazy_no_scrypt_no_prompt (pass : String) (cache : Option String) (l : List Stanza)
    (h : ∀ s ∈ l, s.ty ≠ ("scrypt")) :
    (lazyScryptUnwrap pass cache l).prompts = 0 := by
  cases l with
  | nil => cases cache <;> simp [lazyScryptUnwrap]
  | cons s rest =>
    cases rest with
    | nil =>
      simp only [lazyScryptUnwrap]
      rw [if_neg (h s (by simp))]
    | cons s2 rest2 =>
      simp only [lazyScryptUnwrap]
      rw [if_neg (by
        rintro ⟨x, hx, hty⟩
        exact h x hx hty)]

/-- C7: the CLI passphrase decrypt path issues no passphrase prompt when
the file carries no scrypt stanza; across two successive Unwrap calls of
the lazy scrypt identity (threading its cache) at most one prompt is
ever issued, and a call that starts from a populated cache never
prompts. -/
theorem lazy_scrypt_prompting :
    (∀ (pass : String) (f : EncryptedFile),
        (∀ s ∈ f.stanzas, s.ty ≠ ("scrypt")) → (decryptPass pass f).2 = 0) ∧
    (∀ (pass : String) (l1 l2 : List Stanza),
        (lazyScryptUnwrap pass none l1).prompts
          + (lazyScryptUnwrap pass (lazyScryptUnwrap pass none l1).cache l2).prompts ≤ 1) ∧
    (∀ (pass p : String) (l : List Stanza),
        (lazyScryptUnwrap pass (some p) l).prompts = 0) := by
  refine ⟨?_, ?_, lazy_prompts_cached⟩
  · intro pass f h
    unfold decryptPass
    by_cases h0 : f.stanzas = []
    · rw [if_pos h0]
    · rw [if_neg h0]
      by_cases h1 : (∃ s ∈ f.stanzas, s.ty = ("scrypt")) ∧ f.stanzas.length ≠ 1
      · rw [if_pos h1]
      · rw [if_neg h1]
        have hp := lazy_no_scrypt_no_prompt pass none f.stanzas h
        rcases hr : lazyScryptUnwrap pass none f.stanzas with ⟨r, c, n⟩
        rw [hr] at hp
        cases r <;> simpa using hp
  · intro pass l1 l2
    cases l1 with
    | nil =>
      have h1 : lazyScryptUnwrap pass none [] = ⟨.incorrect, none, 0⟩ := rfl
      rw [h1]
      simpa using lazy_prompts_le_one pass none l2
    | cons s rest =>
      cases rest with
      | nil =>
        by_cases h : s.ty = ("scrypt")
        · have h1 : lazyScryptUnwrap pass none [s]
              = ⟨(scryptUnwrap pass [s]).1, some pass, 1⟩ := by
            show (if s.ty = ("scrypt") then
                (⟨(scryptUnwrap pass [s]).1, some pass, 1⟩ : LazyResult)
              else ⟨.incorrect, none, 0⟩)
              = ⟨(scryptUnwrap pass [s]).1, some pass, 1⟩
            rw [if_pos h]
          rw [h1]
          simpa using lazy_prompts_cached pass pass l2
        · have h1 : lazyScryptUnwrap pass none [s] = ⟨.incorrect, none, 0⟩ := by
            show (if s.ty = ("scrypt") then
                (⟨(scryptUnwrap pass [s]).1, some pass, 1⟩ : LazyResult)
              else ⟨.incorrect, none, 0⟩)
              = ⟨.incorrect, none, 0⟩
            rw [if_neg h]
          rw [h1]
          simpa using lazy_prompts_le_one pass none l2
      | cons s2 rest2 =>
        by_cases h : ∃ x ∈ s :: s2 :: rest2, x.ty = ("scrypt")
        · have h1 : lazyScryptUnwrap pass none (s :: s2 :: rest2) = ⟨.hard, none, 0⟩ := by
            show (if ∃ x ∈ s :: s2 :: rest2, x.ty = ("scrypt") then
                (⟨.hard, none, 0⟩ : LazyResult)
              else ⟨.incorrect, none, 0⟩) = ⟨.hard, none, 0⟩
            rw [if_pos h]
          rw [h1]
          simpa using lazy_prompts_le_one pass none l2
        · have h1 : lazyScryptUnwrap pass none (s :: s2 :: rest2)
              = ⟨.incorrect, none, 0⟩ := by
            show (if ∃ x ∈ s :: s2 :: rest2, x.ty = ("scrypt") then
                (⟨.hard, none, 0⟩ : LazyResult)
              else ⟨.incorrect, none, 0⟩) = ⟨.incorrect, none, 0⟩
            rw [if_neg h]
          rw [h1]
          simpa using lazy_prompts_le_one pass none l2

theorem lazy_scrypt_prompting_witness : (decryptPass ("pw") file0).2 = 0 :=
  lazy_scrypt_prompting.1 ("pw") file0 (by decide)

/-- C8: the CLI `rejectScryptIdentity` returns the incorrect-identity
signal for every stanza list that is not exactly one scrypt stanza (so
the remaining identities are tried), `decryptNotPass` always places it
first in the identity list, and decrypting a passphrase-encrypted file
(one scrypt stanza) with explicitly supplied identities therefore fails
hard regardless of which identities were supplied. -/
theorem reject_scrypt_first :
    (∀ sts : List Stanza, (¬ ∃ s, sts = [s] ∧ s.ty = ("scrypt")) →
        rejectScryptIdentity sts = .incorrect) ∧
    (∀ ids : List Identity,
        (decryptNotPassIdentities ids).head? = some rejectScryptIdentity) ∧
    (∀ (ids : List Identity) (f : EncryptedFile) (s : Stanza),
        f.stanzas = [s] → s.ty = ("scrypt") →
        decrypt (decryptNotPassIdentities ids) f = .error .hardIdentity) := by
  refine ⟨?_, fun ids => rfl, ?_⟩
  · intro sts h
    cases sts with
    | nil => rfl
    | cons s rest =>
      cases rest with
      | nil =>
        show (if s.ty = ("scrypt") then UnwrapResult.hard else .incorrect) = .incorrect
        rw [if_neg (fun hty => h ⟨s, rfl, hty⟩)]
      | cons s2 rest2 => rfl
  · intro ids f s hfs hty
    unfold decrypt
    rw [hfs]
    rw [if_neg (by simp)]
    rw [if_neg (by
      rintro ⟨_, hlen⟩
      exact hlen rfl)]
    unfold decryptNotPassIdentities
    rw [firstKey]
    have hrej : rejectScryptIdentity [s] = .hard := by
      show (if s.ty = ("scrypt") then UnwrapResult.hard else .incorrect) = .hard
      rw [if_pos hty]
    rw [hrej]

/-- A one-scrypt-stanza container used in witnesses. -/
def f1 : EncryptedFile := ⟨[⟨("scrypt"), [], []⟩], [], [], []⟩

theorem reject_scrypt_first_witness :
    decrypt (decryptNotPassIdentities []) f1 = .error .hardIdentity :=
  reject_scrypt_first.2.2 [] f1 ⟨("scrypt"), [], []⟩ rfl rfl

/-- C9: the CLI decrypt path reports an invalid header intro exactly on
inputs whose first bytes equal the CRLF-mangled or UTF-16-mangled intro,
and passes every other input on to armor detection. -/
theorem mangled_intro_rejected :
    (∀ s : Bytes, cliDecryptInput s = .error .invalidIntro ↔
        (s.take crlfMangledIntro.length = crlfMangledIntro
          ∨ s.take crlfMangledIntro.length = utf16MangledIntro)) ∧
    (∀ s : Bytes, s.take crlfMangledIntro.length ≠ crlfMangledIntro →
        s.take crlfMangledIntro.length ≠ utf16MangledIntro →
        cliDecryptInput s = decryptArmorStage s) := by
  constructor
  · intro s
    unfold cliDecryptInput
    by_cases h : s.take crlfMangledIntro.length = crlfMangledIntro
        ∨ s.take crlfMangledIntro.length = utf16MangledIntro
    · rw [if_pos h]
      simp [h]
    · rw [if_neg h]
      constructor
      · intro habs
        exact absurd habs (armorStage_ne_invalidIntro s)
      · intro habs
        exact absurd habs h
  · intro s h1 h2
    unfold cliDecryptInput
    rw [if_neg (by
      rintro (h | h)
      · exact h1 h
      · exact h2 h)]

theorem mangled_intro_rejected_witness : cliDecryptInput [] = decryptArmorStage [] :=
  mangled_intro_rejected.2 [] (by decide) (by decide)

theorem lazyOpenerRun_failed (ps : List Bytes) :
    lazyOpenerRun false ⟨none, some .createFailed⟩ ps
      = (ps.map (fun _ => (0, some LOErr.createFailed)), ⟨none, some .createFailed⟩) := by
  induction ps with
  | nil => rfl
  | cons p ps ih => simp [lazyOpenerRun, lazyOpenerWrite, ih]

theorem lazyOpenerRun_created (ps : List Bytes) :
    ∀ content, lazyOpenerRun true ⟨some content, none⟩ ps
      = (ps.map (fun p => (p.length, (none : Option LOErr))),
        ⟨some (content ++ ps.flatten), none⟩) := by
  induction ps with
  | nil =>
    intro content
    simp [lazyOpenerRun]
  | cons p ps ih =>
    intro content
    simp [lazyOpenerRun, lazyOpenerWrite, ih (content ++ p)]

/-- C10: a `lazyOpener` creates its output file only on the first Write
call — with no Write call, Close returns nil and no file is created;
when creation fails, every Write returns the stored creation error with
0 bytes written and no file ever exists; when creation succeeds, every
Write succeeds writing its full buffer and the file exists exactly when
at least one Write happened, holding the concatenation of the writes. -/
theorem lazyOpener_behavior :
    (lazyOpenerClose newLazyOpener = none ∧ newLazyOpener.file = none) ∧
    (∀ ps : List Bytes,
        (lazyOpenerRun false newLazyOpener ps).1
          = ps.map (fun _ => (0, some LOErr.createFailed)) ∧
        (lazyOpenerRun false newLazyOpener ps).2.file = none) ∧
    (∀ ps : List Bytes,
        (lazyOpenerRun true newLazyOpener ps).1
          = ps.map (fun p => (p.length, (none : Option LOErr))) ∧
        (lazyOpenerRun true newLazyOpener ps).2.file
          = (if ps = [] then none else some ps.flatten)) := by
  refine ⟨⟨rfl, rfl⟩, ?_, ?_⟩
  · intro ps
    cases ps with
    | nil => exact ⟨rfl, rfl⟩
    | cons p ps =>
      constructor
      · simp [lazyOpenerRun, lazyOpenerWrite, newLazyOpener, lazyOpenerRun_failed]
      · simp [lazyOpenerRun, lazyOpenerWrite, newLazyOpener, lazyOpenerRun_failed]
  · intro ps
    cases ps with
    | nil => exact ⟨rfl, rfl⟩
    | cons p ps =>
      constructor
      · simp [lazyOpenerRun, lazyOpenerWrite, newLazyOpener, lazyOpenerRun_created ps p]
      · simp [lazyOpenerRun, lazyOpenerWrite, newLazyOpener, lazyOpenerRun_created ps p]

end Age



